import Mathlib

/-!
Verification development for the SK DOCX-to-PPTX converter.

The Python sources under `converter/` are shallowly embedded below:
text is `List Char` (one Python `str` character per list entry),
machine integers are `Int`/`Nat`, Python floats that only ever hold
exactly representable small values (OCR confidences, coordinate
halves, aspect ratios) are `Rat`, fallible code returns `Except` or
`Option`.  Each definition carries a comment pointing at the source
function it translates.
-/

namespace SKConv

/-- Python `\s` / `str.strip` whitespace class (ASCII part, which is all that
the parsed documents contain): space, tab, newline, carriage return,
vertical tab, form feed. -/
def isWs (c : Char) : Bool :=
  c == ' ' || c == '\t' || c == '\n' || c == '\r' || c == '\x0b' || c == '\x0c'

/-- Python `str.strip()`: drop whitespace from both ends. -/
def pyStrip (s : List Char) : List Char :=
  ((s.dropWhile isWs).reverse.dropWhile isWs).reverse

/-- Python `pat in s` substring test. -/
def containsSub (pat : List Char) : List Char → Bool
  | [] => pat.isEmpty
  | c :: rest => List.isPrefixOf pat (c :: rest) || containsSub pat rest

/-- Python `str.lower()` (ASCII; the marker words compared are ASCII). -/
def lowerAll (s : List Char) : List Char :=
  s.map Char.toLower

/-- Number of occurrences of a character; `len(text.split(ch)) > 2` in the
source is equivalent to `2 ≤ countChar ch text`. -/
def countChar (ch : Char) (s : List Char) : Nat :=
  (s.filter (fun c => c == ch)).length

/-- Uppercase ASCII letter, Python regex class `[A-Z]`. -/
def isUpperAZ (c : Char) : Bool :=
  'A' ≤ c && c ≤ 'Z'

/-- Matcher for the tail `\s*p` after at least one `\s` was consumed:
zero or more further whitespace characters, then a character satisfying
`p`.  `p` is disjoint from whitespace in every use, so existential
matching coincides with the regex engine. -/
def restThenSat (p : Char → Bool) : List Char → Bool
  | c :: rest => p c || (isWs c && restThenSat p rest)
  | [] => false

/-- Matcher for `\s+` followed by a character satisfying `p`. -/
def wsPlusThenSat (p : Char → Bool) : List Char → Bool
  | c :: rest => isWs c && restThenSat p rest
  | [] => false

/-- Python `re.match(r'^[A-Z]\s+[A-Z]', text)` truthiness
(mcq2_converter.py line 72). -/
def matchUpperWsUpper : List Char → Bool
  | c :: rest => isUpperAZ c && wsPlusThenSat isUpperAZ rest
  | [] => false

/-- Python `re.match(r'^[A-Z]\s+\>', text)` truthiness
(mcq2_converter.py line 73). -/
def matchUpperWsGt : List Char → Bool
  | c :: rest => isUpperAZ c && wsPlusThenSat (fun d => d == '>') rest
  | [] => false

/-- Python `re.match(r'^[A-Z]+\s+[A-Z]+', text)` truthiness
(mcq2_converter.py line 76).  The leading `[A-Z]+` is forced to consume the
maximal uppercase run because `\s+` cannot match a letter, and the trailing
`[A-Z]+` needs one letter. -/
def matchUppersWsUppers : List Char → Bool
  | c :: rest =>
    isUpperAZ c &&
      (match rest.dropWhile isUpperAZ with
        | d :: r2 => isWs d && restThenSat isUpperAZ r2
        | [] => false)
  | [] => false

/-- Python `re.match(r'^\d{1,2}+\.', text)` truthiness
(mcq2_converter.py line 91, mcq3_converter.py line 106): one or two digits
followed immediately by a period.  The possessive quantifier agrees with the
greedy one here because a digit is never a period. -/
def matchQNum : List Char → Bool
  | a :: b :: rest =>
    a.isDigit &&
      (if b.isDigit then
        (match rest with
          | c :: _ => c == '.'
          | [] => false)
      else b == '.')
  | _ => false

/-- Python `re.match(r'^\(\d+\)', text)` truthiness
(mcq2_converter.py line 105): an option marker `(digits)`. -/
def matchOption : List Char → Bool
  | '(' :: rest =>
    !(rest.takeWhile Char.isDigit).isEmpty &&
      (match rest.dropWhile Char.isDigit with
        | ')' :: _ => true
        | _ => false)
  | _ => false

/-- Python `re.match(r'^\\\(\d+\\\)', text)` truthiness
(mcq2_converter.py line 105): an escaped option marker `\(digits\)`. -/
def matchEscOption : List Char → Bool
  | '\\' :: '(' :: rest =>
    !(rest.takeWhile Char.isDigit).isEmpty &&
      (match rest.dropWhile Char.isDigit with
        | '\\' :: ')' :: _ => true
        | _ => false)
  | _ => false

/-- Python `text.replace('**', '')` (mcq2_converter.py line 80). -/
def removeBold : List Char → List Char
  | '*' :: '*' :: rest => removeBold rest
  | c :: rest => c :: removeBold rest
  | [] => []

/-- Condition of mcq2_converter.py lines 70-77: the shapes of a line that is
accumulated into a pending arrangement block. -/
def arrangementLine (text : List Char) : Bool :=
  List.isPrefixOf ['['] text ||
  (text.take 5).contains '>' ||
  matchUpperWsUpper text ||
  matchUpperWsGt text ||
  text.contains '_' ||
  List.isPrefixOf ['*', '*'] text ||
  matchUppersWsUppers text ||
  text.contains '→' || text.contains '↑' || text.contains '↓' || text.contains '←'

/-- One content block of `mcq2_converter.parse_word_document`.  Every block
appended by the source has `'type': 'question'`, so the type tag is left
implicit. -/
structure Block where
  direction : Option (List Char)
  arrangement : Option (List Char)
  content : List Char
  options : List (List Char)
deriving DecidableEq, Repr

/-- Parser state of `parse_word_document` (mcq2_converter.py lines 43-48). -/
structure PState where
  blocks : List Block
  current_direction : Option (List Char)
  pending_arrangement : Option (List Char)
  in_arrangement : Bool
deriving DecidableEq, Repr

/-- Apply a function to the last block of the list
(`content_blocks[-1][...] = ...` in the source). -/
def modifyLast (l : List Block) (f : Block → Block) : List Block :=
  match l with
  | [] => []
  | [b] => [f b]
  | b :: rest => b :: modifyLast rest f

/-- One iteration of the paragraph loop of
`mcq2_converter.parse_word_document` (lines 50-110).  The two
`if`-chains of the source run in sequence on the same paragraph.  The
body-append branch evaluates `text in pending_arrangement`; when
`pending_arrangement` is `None` Python raises
`TypeError: argument of type NoneType is not iterable`, modelled as
`Except.error`. -/
def parseStep (st : PState) (raw : List Char) : Except String PState :=
  let text := pyStrip raw
  if text.isEmpty then .ok st
  else
    let st1 :=
      if containsSub ("Directions for questions").toList text ||
          containsSub ("DIRECTIONS:").toList text then
        { st with current_direction := some text }
      else if containsSub ("arrangement").toList (lowerAll text) ||
          containsSub ("final").toList (lowerAll text) ||
          containsSub ("follows").toList (lowerAll text) then
        { st with in_arrangement := true, pending_arrangement := some (text ++ ['\n']) }
      else if st.in_arrangement then
        if arrangementLine text then
          let clean := pyStrip (removeBold text)
          let pa :=
            match st.pending_arrangement with
            | some p => p ++ clean ++ ['\n']
            | none => clean ++ ['\n']
          let st2 := { st with pending_arrangement := some pa }
          if text.getLast? == some ',' then st2
          else { st2 with in_arrangement := false }
        else st
      else st
    if matchQNum text then
      .ok { st1 with
              blocks := st1.blocks ++
                [{ direction := st1.current_direction,
                   arrangement := st1.pending_arrangement,
                   content := text, options := [] }],
              pending_arrangement := none }
    else if !st1.blocks.isEmpty then
      if matchOption text || matchEscOption text then
        .ok { st1 with
                blocks := modifyLast st1.blocks
                  (fun b => { b with options := b.options ++ [text] }) }
      else if List.isPrefixOf ("-----").toList text then .ok st1
      else if List.isPrefixOf ("===").toList text then .ok st1
      else if 2 ≤ countChar '|' text then .ok st1
      else
        match st1.pending_arrangement with
        | none => .error "TypeError: argument of type NoneType is not iterable"
        | some p =>
          if containsSub text p then .ok st1
          else
            .ok { st1 with
                    blocks := modifyLast st1.blocks
                      (fun b => { b with content := b.content ++ '\n' :: text }) }
    else .ok st1

/-- `mcq2_converter.parse_word_document` (lines 39-111), over the stripped
paragraph texts of the document. -/
def parse_word_document (paras : List String) : Except String (List Block) :=
  ((paras.map String.toList).foldlM parseStep
      { blocks := [], current_direction := none,
        pending_arrangement := none, in_arrangement := false }).map PState.blocks

/-- Python `re.search(r'^(\*\*)?(\d+)\.', content)` of
`mcq2_converter.convert_word_to_ppt` (line 627): question number at the
start of a block content, with an optional bold marker. -/
def questionNumOf (content : List Char) : Option Nat :=
  let body := if List.isPrefixOf ['*', '*'] content then content.drop 2 else content
  let ds := body.takeWhile Char.isDigit
  if ds.isEmpty then none
  else
    match body.dropWhile Char.isDigit with
    | '.' :: _ => some (ds.foldl (fun n c => 10 * n + (c.toNat - '0'.toNat)) 0)
    | _ => none

/-- One output slide of `mcq2_converter.convert_word_to_ppt`, keeping the
content-determining fields of `create_arrangement_slide` and
`create_question_slide`. -/
inductive MSlide where
  | arrangement (text : List Char) (direction : Option (List Char)) (num : Nat)
      (diagram : Option (List Char)) : MSlide
  | question (block : Block) : MSlide
deriving DecidableEq, Repr

/-- Slide loop of `mcq2_converter.convert_word_to_ppt` (lines 620-650).
`extracted` abstracts the `extracted_images` map built by the raster
pipeline (question number to list of diagram file paths; an absent key is
the empty list, matching the `defaultdict(list)` which only ever stores
non-empty lists). -/
def slidesForGo (extracted : Nat → List (List Char)) :
    List Block → Option (List Char) → Nat → List MSlide
  | [], _, _ => []
  | b :: rest, cur, i =>
    let qnum := questionNumOf b.content
    let cur2 :=
      match b.direction with
      | some d => if !d.isEmpty && some d != cur then some d else cur
      | none => cur
    let diag : Option (List Char) :=
      match qnum with
      | some n =>
        if n ≠ 0 then
          (match extracted n with
            | [] => none
            | p :: _ => some p)
        else none
      | none => none
    let arrSlides :=
      match b.arrangement with
      | some a => if !a.isEmpty then [MSlide.arrangement a cur2 i diag] else []
      | none => []
    arrSlides ++ MSlide.question b :: slidesForGo extracted rest cur2 (i + 1)

/-- Slides produced for a list of parsed blocks
(`mcq2_converter.convert_word_to_ppt`, lines 620-650). -/
def slidesFor (extracted : Nat → List (List Char)) (blocks : List Block) : List MSlide :=
  slidesForGo extracted blocks none 0

/-- `mcq2_converter.convert_word_to_ppt` (lines 602-655): parse, then build
one deck; a parser exception propagates and no deck is produced.  The
presentation chrome (logo, borders, save) carries no decision logic and is
elided. -/
def convert_word_to_ppt (extracted : Nat → List (List Char)) (paras : List String) :
    Except String (List MSlide) :=
  (parse_word_document paras).map (slidesFor extracted)

/-- One OCR anchor record of `detect_question_regions_enhanced`
(mcq2_converter.py lines 210-217): detected question number, bounding box,
OCR confidence. -/
structure QRegion where
  number : Nat
  x : Int
  y : Int
  width : Int
  height : Int
  confidence : Rat
deriving DecidableEq, Repr

/-- Python `coord > page_width / 2` (mcq2_converter.py lines 279, 284),
where `page_width / 2` is float true division of an exactly representable
integer: over the integers involved, `x > W / 2` holds exactly when
`2 * x > W`, which is the form used here. -/
def inRightHalf (x page_width : Int) : Bool :=
  decide (2 * x > page_width)

/-- Column filtering of `find_associated_question`
(mcq2_converter.py lines 278-290): keep the anchors in the diagram's
column; if that leaves nothing, use all anchors. -/
def candidateSet (img_x : Int) (qs : List QRegion) (page_width : Int) : List QRegion :=
  let isRight := inRightHalf img_x page_width
  let col := qs.filter (fun q => inRightHalf q.x page_width == isRight)
  if col.isEmpty then qs else col

/-- Python `distance < min_distance` against `min_distance = float('inf')`
(`none`) or a finite current minimum. -/
def distLt (d : Int) : Option Int → Bool
  | none => true
  | some m => decide (d < m)

/-- The minimum-distance scan shared by the two loops of
`find_associated_question` (mcq2_converter.py lines 296-311): for each
anchor passing `pred`, if its `key` distance beats the current minimum,
record its number and distance.  `init` is the incoming
`(closest_question, min_distance)` pair, which the second loop of the
source inherits from the first. -/
def minScan (key : QRegion → Int) (pred : QRegion → Bool)
    (l : List QRegion) (init : Option Nat × Option Int) : Option Nat × Option Int :=
  l.foldl
    (fun st q =>
      if pred q then
        if distLt (key q) st.2 then (some q.number, some (key q)) else st
      else st)
    init

/-- Python truthiness of `closest_question` in
`if not closest_question:` (mcq2_converter.py line 305): `None` and `0`
are both falsy. -/
def pyFalsy : Option Nat → Bool
  | none => true
  | some n => n == 0

/-- `mcq2_converter.find_associated_question` (lines 270-313): column
filter, then nearest anchor strictly below the diagram's vertical center,
then — if none was found (or its number is the falsy `0`) — nearest anchor
at or above the center, with `min_distance` carried over between the two
loops as in the source. -/
def find_associated_question (img_y img_x img_h : Int) (question_regions : List QRegion)
    (page_width : Int) : Option Nat :=
  if question_regions.isEmpty then none
  else
    let img_center_y := img_y + Int.fdiv img_h 2
    let col := candidateSet img_x question_regions page_width
    let below := minScan (fun q => q.y - img_center_y)
      (fun q => decide (img_center_y < q.y)) col (none, none)
    if pyFalsy below.1 then
      (minScan (fun q => img_center_y - q.y)
        (fun q => decide (q.y ≤ img_center_y)) col below).1
    else below.1

/-- `MCQConverter.find_closest_question` (mcq1_converter.py lines
205-222), the mcq1 variant of the association engine: it scans only
anchors strictly above the image's vertical center (`q['y'] < image_y`)
for the nearest one, and returns `None` when no anchor is above — it
never looks below.  `image_x` and `page_width` are accepted and ignored,
as in the source.  The scan loop is the same minimum-distance pattern as
mcq2's, hence expressed with `minScan`. -/
def find_closest_question (image_y image_x : Int) (question_regions : List QRegion)
    (page_width : Int) : Option Nat :=
  let _ := image_x
  let _ := page_width
  if question_regions.isEmpty then none
  else
    (minScan (fun q => image_y - q.y) (fun q => decide (q.y < image_y))
      question_regions (none, none)).1

/-- Anchor deduplication of `detect_question_regions_enhanced`
(mcq2_converter.py lines 227-231): a dictionary keyed by question number
in first-insertion order, replacing an entry only when the new candidate
has strictly higher confidence. -/
def updAssoc (acc : List (Nat × QRegion)) (q : QRegion) : List (Nat × QRegion) :=
  match acc with
  | [] => [(q.number, q)]
  | (k, r) :: rest =>
    if k = q.number then
      if r.confidence < q.confidence then (k, q) :: rest else (k, r) :: rest
    else (k, r) :: updAssoc rest q

/-- `unique_questions` values, in dictionary insertion order
(mcq2_converter.py lines 227-233). -/
def dedupByNumber (l : List QRegion) : List QRegion :=
  (l.foldl updAssoc []).map Prod.snd

/-- Key comparison of `question_regions.sort(key=lambda q: (q['y'], q['x']))`
(mcq2_converter.py line 236): lexicographic order on `(y, x)`. -/
def posLe (a b : QRegion) : Bool :=
  if a.y < b.y then true
  else if a.y = b.y then decide (a.x ≤ b.x)
  else false

/-- Stable insertion into a `posLe`-sorted list. -/
def insertByPos (q : QRegion) : List QRegion → List QRegion
  | [] => [q]
  | r :: rest => if posLe r q then r :: insertByPos q rest else q :: r :: rest

/-- Python `list.sort(key=lambda q: (q['y'], q['x']))`
(mcq2_converter.py line 236), as an insertion sort by the same key. -/
def sortByPos (l : List QRegion) : List QRegion :=
  l.foldr insertByPos []

/-- Deduplicate-then-sort postlude of `detect_question_regions_enhanced`
(mcq2_converter.py lines 226-238), applied to the accumulated OCR
candidates of all detection passes that ran. -/
def dedupe_and_sort_regions (l : List QRegion) : List QRegion :=
  sortByPos (dedupByNumber l)

/-- `mcq2_converter.is_valid_diagram` (lines 241-267).  `w`, `h` come from
`cv2.boundingRect`; `area` and `hull_area` from `cv2.contourArea` of the
contour and its convex hull (externally computed and passed in here).
When `h = 0` Python's `aspect_ratio` is `float('inf')`, which the source
then rejects through `aspect_ratio > 10`; that branch appears here as an
explicit rejection.  When `hull_area ≤ 0`, `solidity` is `0` and is
rejected by `solidity < 0.3`. -/
def is_valid_diagram (w h : Nat) (area hull_area : Rat) : Bool :=
  if area < 5000 then false
  else if h = 0 then false
  else if 10 < (w : Rat) / (h : Rat) ∨ (w : Rat) / (h : Rat) < 1 / 10 then false
  else if w < 20 ∨ h < 20 then false
  else if (if 0 < hull_area then area / hull_area else 0) < 3 / 10 then false
  else true

/-- Crop-rectangle clamping of `extract_diagrams_from_pages`
(mcq2_converter.py lines 364-367) and of
`MCQConverter.extract_images_with_questions`
(mcq1_converter.py lines 266-269): pad the bounding box and clamp to the
page image. Returns `(x1, y1, x2, y2)`. -/
def cropRect (x y w h pad img_w img_h : Int) : Int × Int × Int × Int :=
  (max (x - pad) 0, max (y - pad) 0, min (x + w + pad) img_w, min (y + h + pad) img_h)

/-- Python `content.split('.')` (passage_converter.py line 304). -/
def splitOnDot : List Char → List (List Char)
  | [] => [[]]
  | '.' :: rest => [] :: splitOnDot rest
  | c :: rest =>
    match splitOnDot rest with
    | s :: ss => (c :: s) :: ss
    | [] => [[c]]

/-- Sentence list of `split_passage_content`
(passage_converter.py lines 304-305): split on periods, keep the pieces
with non-whitespace content, re-append a period unless the piece already
ends in a period or a closing bracket.  A kept piece is never empty, so the
`none` branch of `getLast?` is unreachable. -/
def sentencesOf (content : List Char) : List (List Char) :=
  ((splitOnDot content).filter (fun s => !(pyStrip s).isEmpty)).map
    (fun s =>
      match s.getLast? with
      | some c => if c == '.' || c == ']' then s else s ++ ['.']
      | none => s ++ ['.'])

/-- Accumulator of the chunking loop of `split_passage_content`
(passage_converter.py lines 308-310): emitted chunks, the sentences of
the open chunk, and the running character count of the open chunk. -/
structure ChunkSt where
  contents : List (List Char)
  current : List (List Char)
  curLen : Nat
deriving DecidableEq, Repr

/-- One iteration of the sentence loop of `split_passage_content`
(passage_converter.py lines 312-322): the budget is 550 while no chunk has
been emitted yet and 725 afterwards; a sentence that would push the open
non-empty chunk past the budget flushes it (joined) and starts a fresh
chunk. -/
def chunkStep (st : ChunkSt) (s : List Char) : ChunkSt :=
  let budget : Nat := if st.contents.isEmpty then 550 else 725
  if budget < st.curLen + s.length ∧ ¬ st.current.isEmpty then
    { contents := st.contents ++ [st.current.flatten], current := [s], curLen := s.length }
  else
    { st with current := st.current ++ [s], curLen := st.curLen + s.length }

/-- `WordToPowerPointConverter.split_passage_content`
(passage_converter.py lines 301-326). -/
def split_passage_content (content : List Char) : List (List Char) :=
  let st := (sentencesOf content).foldl chunkStep { contents := [], current := [], curLen := 0 }
  if ¬ st.current.isEmpty then st.contents ++ [st.current.flatten] else st.contents

/-- Accumulator mirroring `ChunkSt` but keeping each emitted chunk as its
list of sentences rather than joined; used to express that every chunk is a
concatenation of whole sentences. -/
structure GChunkSt where
  contents : List (List (List Char))
  current : List (List Char)
  curLen : Nat

/-- `chunkStep` on the ungrouped accumulator. -/
def gChunkStep (st : GChunkSt) (s : List Char) : GChunkSt :=
  let budget : Nat := if st.contents.isEmpty then 550 else 725
  if budget < st.curLen + s.length ∧ ¬ st.current.isEmpty then
    { contents := st.contents ++ [st.current], current := [s], curLen := s.length }
  else
    { st with current := st.current ++ [s], curLen := st.curLen + s.length }

/-- The greedy grouping of a sentence list into chunks, before joining:
`split_passage_content` equals this composed with per-chunk join. -/
def chunkGroups (sentences : List (List Char)) : List (List (List Char)) :=
  let st := sentences.foldl gChunkStep { contents := [], current := [], curLen := 0 }
  if ¬ st.current.isEmpty then st.contents ++ [st.current] else st.contents

/-- One content slide of the passage converter, keeping the fields that
`create_content_slide` (passage_converter.py lines 93-176) decides for a
passage chunk: the title (passage label on the first chunk), the chunk
text, and whether the "Continued" footer box is added (lines 149-163: the
footer is added exactly when `is_passage` holds and the slide is not the
last chunk of its passage). -/
structure PSlide where
  title : List Char
  content : List Char
  continuedFooter : Bool
deriving DecidableEq, Repr

/-- `WordToPowerPointConverter.create_content_slide`
(passage_converter.py lines 93-176), restricted to its content-determining
outputs.  `num` and `directions` only influence the first slide's heading
paragraph and carry no footer logic. -/
def create_content_slide (num : Nat) (directions title content : List Char)
    (is_passage is_last_passage_slide : Bool) : PSlide :=
  let _ := num
  let _ := directions
  { title := title, content := content,
    continuedFooter := is_passage && !is_last_passage_slide }

/-- Map with the running index of `enumerate`. -/
def withIdx {α β : Type} (f : Nat → α → β) : Nat → List α → List β
  | _, [] => []
  | i, c :: cs => f i c :: withIdx f (i + 1) cs

/-- `WordToPowerPointConverter.create_passage_slides`
(passage_converter.py lines 328-350): split the passage body into chunks
and emit one content slide per chunk; the first slide carries the passage
label as title, and a chunk is `is_last` exactly when it is the final
chunk. -/
def create_passage_slides (passage_number content directions : List Char) : List PSlide :=
  let slide_contents := split_passage_content content
  withIdx
    (fun i c =>
      create_content_slide i directions (if i == 0 then passage_number else [])
        (pyStrip c) true (i == slide_contents.length - 1))
    0 slide_contents

/-- A default slide for index-out-of-range access in statements. -/
def dummySlide : PSlide :=
  { title := [], content := [], continuedFooter := false }

/-- Existence of three consecutive newline characters after an arbitrary
run of whitespace; the tail `\s*\n{3,}` of the block-separator regex of
`MCQConverter.split_mcq_blocks` (mcq1_converter.py line 423), matched
existentially (a match of the tail exists from this position iff this
scan succeeds, since every newline is whitespace). -/
def wsThen3NL : List Char → Bool
  | '\n' :: '\n' :: '\n' :: _ => true
  | c :: rest => isWs c && wsThen3NL rest
  | [] => false

/-- The middle `\s*\d{1,2}\.\s*\n{3,}` of the block-separator regex of
`MCQConverter.split_mcq_blocks`: skip whitespace, read one or two digits
directly followed by a period, then `wsThen3NL`. -/
def wsThenNumDot3NL : List Char → Bool
  | c :: rest =>
    (c.isDigit &&
      (match rest with
        | '.' :: r2 => wsThen3NL r2
        | d :: '.' :: r3 => d.isDigit && wsThen3NL r3
        | _ => false)) ||
    (isWs c && wsThenNumDot3NL rest)
  | [] => false

/-- A match of the full block-separator regex
`\n{3,}\s*\d{1,2}\.\s*\n{3,}` (mcq1_converter.py line 423) exists starting
at this position. -/
def matchBlockSepAt : List Char → Bool
  | '\n' :: '\n' :: '\n' :: rest => wsThenNumDot3NL rest
  | _ => false

/-- `finditer` of the block-separator regex finds at least one match in
the flattened text (mcq1_converter.py lines 423-424). -/
def existsBlockSep : List Char → Bool
  | [] => false
  | c :: rest => matchBlockSepAt (c :: rest) || existsBlockSep rest

/-- `MCQConverter.parse_html` (mcq1_converter.py lines 435-463) yields
zero MCQ records: `split_mcq_blocks` builds exactly one block per
separator match (lines 426-432) and `parse_html` builds exactly one MCQ
record per block (lines 449-462), so the record list is empty iff the
separator regex never matches the flattened text.  The HTML flattening
that produces the text is the external text-extraction collaborator. -/
def parse_html_yields_zero (full_text : List Char) : Bool :=
  !existsBlockSep full_text

/-- Rest of the input after a match of the marker `\*\*\d+\.\*\*`
(the head of `MCQConverter.mcq_pattern`, mcq1_converter.py line 29)
starting at this position. -/
def markerRest : List Char → Option (List Char)
  | '*' :: '*' :: rest =>
    if (rest.takeWhile Char.isDigit).isEmpty then none
    else
      match rest.dropWhile Char.isDigit with
      | '.' :: '*' :: '*' :: r => some r
      | _ => none
  | _ => none

/-- An option marker `(\d+)` occurs somewhere in the text. -/
def containsOption : List Char → Bool
  | [] => false
  | c :: rest => matchOption (c :: rest) || containsOption rest

/-- Modelled from the spec: the documented fallback parse strategy — "a
looser pattern matching numbered segments directly against embedded
option markers" — is absent from the repository (only the unused pattern
constants `mcq_pattern` and `option_pattern` of `MCQConverter.__init__`
remain, mcq1_converter.py lines 29-30).  Following the spec's words and
those constants, the fallback yields at least one record when a bold
numbered-segment marker `**N.**` occurs with an embedded option marker
`(k)` after it. -/
def fallback_has_record : List Char → Bool
  | [] => false
  | c :: rest =>
    (match markerRest (c :: rest) with
      | some r => containsOption r
      | none => false) ||
    fallback_has_record rest

/-- `MCQConverter.convert_document` (mcq1_converter.py lines 605-641)
viewed at the level that decides success: it returns `False` exactly when
`parse_html` found no MCQ records (lines 617-619), and otherwise builds
and saves the deck and returns `True`.  No other parse strategy is
consulted. -/
def mcq1_convert_document (full_text : List Char) : Bool :=
  !(parse_html_yields_zero full_text)

/-- Terminal job state of `ConverterManager.convert`
(converters.py lines 35-81). -/
inductive JobStatus where
  | completed : JobStatus
  | failed : JobStatus
deriving DecidableEq, Repr

/-- `ConverterManager.convert` composed with `convert_mcq1`
(converters.py lines 35-81 and 108-130): a `False` return of the
converter raises `ConversionError`, which marks the job failed and saves
no output file; a `True` return saves the produced file and marks the job
completed. -/
def manager_convert (full_text : List Char) : JobStatus × Option Unit :=
  if mcq1_convert_document full_text then (JobStatus.completed, some ())
  else (JobStatus.failed, none)

/-- Concrete document consisting of a single option-less question paragraph. -/
def qOnlyBlock : Block :=
  { direction := none, arrangement := none, content := ("1. Which?").toList, options := [] }

/-- Concrete passage body: one 551-character sentence (550 letters and a
final period). -/
def oneLongSentence : List Char :=
  List.replicate 550 'a' ++ ['.']

/-- Concrete anchor in the left half of a 1000-pixel-wide page. -/
def anchorLeft : QRegion :=
  { number := 1, x := 100, y := 500, width := 10, height := 10, confidence := 90 }

/-- Concrete anchor in the right half of a 1000-pixel-wide page. -/
def anchorRight : QRegion :=
  { number := 2, x := 600, y := 500, width := 10, height := 10, confidence := 90 }

/-- Concrete lone anchor for the association scenario of the spec: right
column, top of the page. -/
def anchorLone : QRegion :=
  { number := 1, x := 600, y := 100, width := 50, height := 20, confidence := 80 }

/-- Concrete anchor 50 pixels below an image center at `y = 300`. -/
def anchorBelowNear : QRegion :=
  { number := 1, x := 600, y := 350, width := 10, height := 10, confidence := 90 }

/-- Concrete anchor 300 pixels above an image center at `y = 300`. -/
def anchorAboveFar : QRegion :=
  { number := 2, x := 600, y := 0, width := 10, height := 10, confidence := 90 }

/-- Concrete OCR candidate list with a duplicated question number. -/
def ocrCandidates : List QRegion :=
  [{ number := 3, x := 5, y := 9, width := 1, height := 1, confidence := 50 },
   { number := 2, x := 7, y := 3, width := 1, height := 1, confidence := 60 },
   { number := 3, x := 6, y := 2, width := 1, height := 1, confidence := 80 }]

/-- The candidate that deduplication keeps for question number 3. -/
def keptAnchor : QRegion :=
  { number := 3, x := 6, y := 2, width := 1, height := 1, confidence := 80 }

/-!  Theorems.  Each claim of the specification is settled below; helper
lemmas precede the claim theorems that use them. -/

/-- Claim C1 (code_bug evidence): the document whose stripped paragraphs
are `"1. Q"`, `"x"`, `"(1) a"` contains exactly one question marker
matching the question pattern, with an option marker, yet
`parse_word_document` raises a `TypeError` — the body line `"x"` reaches
`text in pending_arrangement` with `pending_arrangement = None` — and so
emits no Question record at all instead of the one record the claim
requires. -/
theorem mcq2_parse_crashes_on_body_line :
    matchQNum (pyStrip ("1. Q").toList) = true ∧
    matchOption (pyStrip ("(1) a").toList) = true ∧
    parse_word_document ["1. Q", "x", "(1) a"] =
      .error "TypeError: argument of type NoneType is not iterable" :=
  ⟨by decide, by decide, by rfl⟩

/-- Helper: every parsed block receives a question slide in the deck,
whatever its option list. -/
theorem question_mem_slidesForGo (extracted : Nat → List (List Char)) (b : Block) :
    ∀ (blocks : List Block) (cur : Option (List Char)) (i : Nat),
      b ∈ blocks → MSlide.question b ∈ slidesForGo extracted blocks cur i := by
  intro blocks
  induction blocks with
  | nil => intro cur i h; cases h
  | cons hd tl ih =>
    intro cur i h
    rcases List.mem_cons.mp h with rfl | hmem
    · simp only [slidesForGo]
      exact List.mem_append.mpr (Or.inr (List.mem_cons_self _ _))
    · simp only [slidesForGo]
      exact List.mem_append.mpr (Or.inr (List.mem_cons_of_mem _ (ih _ _ hmem)))

/-- Claim C6 (counterexample): for the single-paragraph document
`"1. Which?"` the parser emits one Question record with zero options, and
the conversion does not fail: it returns a deck containing a slide for
that incomplete question. -/
theorem zero_option_question_still_converted :
    parse_word_document ["1. Which?"] = .ok [qOnlyBlock] ∧
    qOnlyBlock.options = [] ∧
    convert_word_to_ppt (fun _ => []) ["1. Which?"] = .ok [MSlide.question qOnlyBlock] :=
  ⟨by rfl, by rfl, by rfl⟩

/-- Claim C6 (amended): a Question record that closes with zero options is
not treated as an error by `convert_word_to_ppt`: whenever parsing
succeeds, the conversion produces the deck and the option-less question
still receives its slide. -/
theorem zero_option_question_slide_emitted
    (extracted : Nat → List (List Char)) (paras : List String)
    (blocks : List Block) (b : Block)
    (hp : parse_word_document paras = .ok blocks) (hb : b ∈ blocks)
    (_hopts : b.options = []) :
    convert_word_to_ppt extracted paras = .ok (slidesFor extracted blocks) ∧
    MSlide.question b ∈ slidesFor extracted blocks := by
  refine ⟨?_, question_mem_slidesForGo extracted b blocks none 0 hb⟩
  unfold convert_word_to_ppt
  rw [hp]
  rfl

/-- Witness for the amended claim C6 at the concrete option-less document. -/
theorem zero_option_question_slide_emitted_witness :
    convert_word_to_ppt (fun _ => []) ["1. Which?"] =
      .ok (slidesFor (fun _ => []) [qOnlyBlock]) ∧
    MSlide.question qOnlyBlock ∈ slidesFor (fun _ => []) [qOnlyBlock] :=
  zero_option_question_slide_emitted (fun _ => []) ["1. Which?"] [qOnlyBlock] qOnlyBlock
    (by rfl) (List.mem_singleton.mpr rfl) (by rfl)

/-- Claim C5 (counterexample): on the flattened text
`"**1.** What? (1) a (2) b"` the primary parse of `convert_document`
yields zero records, the documented looser fallback would yield a record
(a bold numbered segment with an embedded option marker is present), yet
the conversion reports failure with no output file — no fallback parse is
ever attempted. -/
theorem no_fallback_before_failure_refuted :
    parse_html_yields_zero ("**1.** What? (1) a (2) b").toList = true ∧
    fallback_has_record ("**1.** What? (1) a (2) b").toList = true ∧
    manager_convert ("**1.** What? (1) a (2) b").toList = (JobStatus.failed, none) :=
  ⟨by decide, by decide, by rfl⟩

/-- Claim C5 (amended): the conversion reports failure with no output file
exactly when the primary parse yields zero records; no fallback parse
strategy exists between the two. -/
theorem zero_parse_fails_without_output (full_text : List Char) :
    manager_convert full_text = (JobStatus.failed, none) ↔
      parse_html_yields_zero full_text = true := by
  unfold manager_convert mcq1_convert_document
  cases h : parse_html_yields_zero full_text <;> simp [h]

/-- Claim C8: a contour qualifies as a diagram exactly when its area
reaches the minimum threshold, its aspect ratio lies in the bounded range
(in particular its height is positive), its width and height reach the
minimum pixel size, and its convex-hull solidity reaches the minimum
fraction; failing any one test rejects it. -/
theorem is_valid_diagram_iff (w h : Nat) (area hull_area : Rat) :
    is_valid_diagram w h area hull_area = true ↔
      (5000 ≤ area ∧ 0 < h ∧
        (1 : Rat) / 10 ≤ (w : Rat) / (h : Rat) ∧ (w : Rat) / (h : Rat) ≤ 10 ∧
        20 ≤ w ∧ 20 ≤ h ∧
        0 < hull_area ∧ (3 : Rat) / 10 ≤ area / hull_area) := by
  unfold is_valid_diagram
  split_ifs with h1 h2 h3 h4 h5 h6 h7
  · simp only [Bool.false_eq_true, false_iff]
    rintro ⟨ha, -⟩
    exact absurd h1 (not_lt.mpr ha)
  · simp only [Bool.false_eq_true, false_iff]
    rintro ⟨-, hh, -⟩
    omega
  · simp only [Bool.false_eq_true, false_iff]
    rintro ⟨-, -, hlo, hhi, -⟩
    rcases h3 with h3 | h3 <;> linarith
  · simp only [Bool.false_eq_true, false_iff]
    rintro ⟨-, -, -, -, hw, hhh, -⟩
    omega
  · simp only [Bool.false_eq_true, false_iff]
    rintro ⟨-, -, -, -, -, -, -, hsol⟩
    linarith
  · simp only [true_iff]
    push_neg at h3 h4
    exact ⟨not_lt.mp h1, Nat.pos_of_ne_zero h2, h3.2, h3.1, by omega, by omega,
      h5, not_lt.mp h6⟩
  · simp only [Bool.false_eq_true, false_iff]
    rintro ⟨-, -, -, -, -, -, hha, -⟩
    exact h5 hha
  · exact absurd (by norm_num) h7

/-- Claim C10: the padded crop rectangle is clamped to the page image:
left and top are at least `0`, right and bottom at most the image width
and height, for every padding value and diagram position. -/
theorem crop_rect_within_bounds (x y w h pad img_w img_h : Int) :
    0 ≤ (cropRect x y w h pad img_w img_h).1 ∧
    0 ≤ (cropRect x y w h pad img_w img_h).2.1 ∧
    (cropRect x y w h pad img_w img_h).2.2.1 ≤ img_w ∧
    (cropRect x y w h pad img_w img_h).2.2.2 ≤ img_h :=
  ⟨le_max_right _ _, le_max_right _ _, min_le_right _ _, min_le_right _ _⟩

set_option maxRecDepth 40000 in
/-- Claim C4 (counterexample): the passage body made of one 551-character
sentence produces a single chunk, hence zero continuation slides, while
the claimed formula `ceil((L - 550) / 725)` demands one. -/
theorem continuation_count_formula_refuted :
    (split_passage_content oneLongSentence).length = 1 ∧
    oneLongSentence.length = 551 ∧
    (oneLongSentence.length - 550 + 725 - 1) / 725 = 1 ∧
    (split_passage_content oneLongSentence).length - 1 ≠
      (oneLongSentence.length - 550 + 725 - 1) / 725 :=
  ⟨by decide, by decide, by decide, by decide⟩

/-- Helper: one chunking step and its ungrouped twin stay in lockstep. -/
theorem chunkStep_rel (r : ChunkSt) (g : GChunkSt) (s : List Char)
    (h1 : r.contents = g.contents.map List.flatten) (h2 : r.current = g.current)
    (h3 : r.curLen = g.curLen) :
    (chunkStep r s).contents = (gChunkStep g s).contents.map List.flatten ∧
    (chunkStep r s).current = (gChunkStep g s).current ∧
    (chunkStep r s).curLen = (gChunkStep g s).curLen := by
  have hemp2 : (g.contents.map List.flatten).isEmpty = g.contents.isEmpty := by
    cases g.contents <;> rfl
  simp only [chunkStep, gChunkStep]
  rw [h1, h2, h3, hemp2]
  split_ifs <;> exact ⟨by simp, rfl, rfl⟩

/-- Helper: the chunking fold and its ungrouped twin stay in lockstep; the
emitted chunks are the per-group joins. -/
theorem foldl_chunk_gChunk_rel :
    ∀ (l : List (List Char)) (r : ChunkSt) (g : GChunkSt),
      r.contents = g.contents.map List.flatten → r.current = g.current →
      r.curLen = g.curLen →
      (l.foldl chunkStep r).contents = (l.foldl gChunkStep g).contents.map List.flatten ∧
      (l.foldl chunkStep r).current = (l.foldl gChunkStep g).current ∧
      (l.foldl chunkStep r).curLen = (l.foldl gChunkStep g).curLen := by
  intro l
  induction l with
  | nil => intro r g h1 h2 h3; exact ⟨h1, h2, h3⟩
  | cons s t ih =>
    intro r g h1 h2 h3
    obtain ⟨k1, k2, k3⟩ := chunkStep_rel r g s h1 h2 h3
    simpa using ih (chunkStep r s) (gChunkStep g s) k1 k2 k3

/-- Helper: through the grouping fold, the flattened groups followed by the
open group always equal the initial material followed by the sentences
consumed so far. -/
theorem foldl_gChunk_flatten :
    ∀ (l : List (List Char)) (g : GChunkSt),
      (l.foldl gChunkStep g).contents.flatten ++ (l.foldl gChunkStep g).current =
        g.contents.flatten ++ g.current ++ l := by
  intro l
  induction l with
  | nil => intro g; simp
  | cons s t ih =>
    intro g
    rw [List.foldl_cons, ih (gChunkStep g s)]
    have step : (gChunkStep g s).contents.flatten ++ (gChunkStep g s).current =
        g.contents.flatten ++ g.current ++ [s] := by
      simp only [gChunkStep]
      split_ifs <;> simp
    rw [step]
    simp [List.append_assoc]

/-- Helper: a group in the contents after one step is an old group or the
closed (non-empty) open group. -/
theorem gChunkStep_contents_mem (g : GChunkSt) (s : List Char) :
    ∀ c ∈ (gChunkStep g s).contents, c ∈ g.contents ∨ (c = g.current ∧ g.current ≠ []) := by
  simp only [gChunkStep]
  split_ifs with hb h1 h2
  · intro c hc
    rcases List.mem_append.mp hc with hc | hc
    · exact Or.inl hc
    · refine Or.inr ⟨List.mem_singleton.mp hc, fun hnil => h1.2 ?_⟩
      rw [hnil]; rfl
  · intro c hc
    exact Or.inl hc
  · intro c hc
    rcases List.mem_append.mp hc with hc | hc
    · exact Or.inl hc
    · refine Or.inr ⟨List.mem_singleton.mp hc, fun hnil => h2.2 ?_⟩
      rw [hnil]; rfl
  · intro c hc
    exact Or.inl hc

/-- Helper: every emitted group of the grouping fold is non-empty. -/
theorem foldl_gChunk_groups_ne_nil :
    ∀ (l : List (List Char)) (g : GChunkSt),
      (∀ c ∈ g.contents, c ≠ []) →
      ∀ c ∈ (l.foldl gChunkStep g).contents, c ≠ [] := by
  intro l
  induction l with
  | nil => intro g h; exact h
  | cons s t ih =>
    intro g h
    rw [List.foldl_cons]
    refine ih (gChunkStep g s) ?_
    intro c hc
    rcases gChunkStep_contents_mem g s c hc with hc2 | ⟨hc2, hne⟩
    · exact h c hc2
    · rw [hc2]; exact hne

/-- Claim C4 (amended): chunks are formed by greedily accumulating whole
sentences (budget 550 for the first chunk, 725 afterwards) and no
sentence is split across two chunks: every emitted chunk is the join of a
non-empty run of consecutive whole sentences, and the runs partition the
sentence list in order. -/
theorem passage_chunks_whole_sentences (content : List Char) :
    split_passage_content content =
      (chunkGroups (sentencesOf content)).map List.flatten ∧
    (chunkGroups (sentencesOf content)).flatten = sentencesOf content ∧
    ∀ g ∈ chunkGroups (sentencesOf content), g ≠ [] := by
  refine ⟨?_, ?_, ?_⟩
  · simp only [split_passage_content, chunkGroups]
    obtain ⟨h1, h2, h3⟩ := foldl_chunk_gChunk_rel (sentencesOf content)
      { contents := [], current := [], curLen := 0 }
      { contents := [], current := [], curLen := 0 } rfl rfl rfl
    rw [h1, h2]
    split
    · simp
    · rfl
  · simp only [chunkGroups]
    have hfl := foldl_gChunk_flatten (sentencesOf content)
      { contents := [], current := [], curLen := 0 }
    simp only [List.flatten_nil, List.nil_append] at hfl
    split
    · next hcur =>
      rw [List.flatten_append]
      simpa using hfl
    · next hcur =>
      have hcur2 : ((sentencesOf content).foldl gChunkStep
          { contents := [], current := [], curLen := 0 }).current = [] :=
        List.isEmpty_iff.mp (not_not.mp hcur)
      rw [hcur2, List.append_nil] at hfl
      exact hfl
  · simp only [chunkGroups]
    have hne := foldl_gChunk_groups_ne_nil (sentencesOf content)
      { contents := [], current := [], curLen := 0 } (by intro c hc; cases hc)
    split
    · next hcur =>
      intro c hc
      rcases List.mem_append.mp hc with hc | hc
      · exact hne c hc
      · rw [List.mem_singleton.mp hc]
        intro hnil
        apply hcur
        rw [hnil]
        rfl
    · exact hne

/-- Witness for the amended claim C4 at a concrete one-sentence passage. -/
theorem passage_chunks_whole_sentences_witness :
    split_passage_content ("ab.").toList = [("ab.").toList] ∧
    [("ab.").toList] ≠ ([] : List (List Char)) :=
  ⟨by decide,
    (passage_chunks_whole_sentences ("ab.").toList).2.2 [("ab.").toList] (by decide)⟩

/-- Helper: `withIdx` preserves length. -/
theorem withIdx_length {α β : Type} (f : Nat → α → β) :
    ∀ (i : Nat) (l : List α), (withIdx f i l).length = l.length := by
  intro i l
  induction l generalizing i with
  | nil => rfl
  | cons c cs ih => simp [withIdx, ih]

/-- Helper: indexing into `withIdx`. -/
theorem withIdx_getD {α β : Type} (f : Nat → α → β) (d : β) (dl : α) :
    ∀ (l : List α) (i j : Nat), j < l.length →
      (withIdx f i l).getD j d = f (i + j) (l.getD j dl) := by
  intro l
  induction l with
  | nil => intro i j h; cases h
  | cons c cs ih =>
    intro i j h
    cases j with
    | zero => rfl
    | succ j =>
      have : j < cs.length := by simpa using h
      calc (withIdx f i (c :: cs)).getD (j + 1) d
          = (withIdx f (i + 1) cs).getD j d := rfl
        _ = f (i + 1 + j) (cs.getD j dl) := ih (i + 1) j this
        _ = f (i + (j + 1)) ((c :: cs).getD (j + 1) dl) := by
            rw [Nat.add_assoc, Nat.add_comm 1 j]
            rfl

/-- Claim C9: in the slides of one passage, the slide at index `i` carries
the "Continued" footer exactly when it is not the last chunk slide; in
particular a single-chunk passage has no footer. -/
theorem continued_footer_iff_not_last (passage_number content directions : List Char)
    (i : Nat) (hi : i < (create_passage_slides passage_number content directions).length) :
    ((create_passage_slides passage_number content directions).getD i
        dummySlide).continuedFooter =
      decide (i + 1 < (create_passage_slides passage_number content directions).length) := by
  have hlen : (create_passage_slides passage_number content directions).length =
      (split_passage_content content).length := withIdx_length _ _ _
  have hi2 : i < (split_passage_content content).length := by rw [hlen] at hi; exact hi
  rw [hlen] at hi ⊢
  unfold create_passage_slides
  rw [withIdx_getD _ _ [] _ 0 i hi2]
  unfold create_content_slide
  simp only [Nat.zero_add, Bool.true_and]
  rcases eq_or_ne i ((split_passage_content content).length - 1) with h | h
  · rw [h]
    simp only [beq_self_eq_true, Bool.not_true]
    exact (decide_eq_false (by omega)).symm
  · rw [beq_eq_false_iff_ne.mpr h]
    simp only [Bool.not_false]
    exact (decide_eq_true (by omega)).symm

/-- Witness for claim C9: the concrete two-chunk passage body made of a
551-character sentence and a 301-character sentence gives a first slide
with the footer; the concrete one-chunk passage gives a final slide
without it. -/
theorem continued_footer_iff_not_last_witness :
    ((create_passage_slides ("P").toList
        (oneLongSentence ++ List.replicate 300 'b' ++ ['.']) []).getD 0
        dummySlide).continuedFooter =
      decide (0 + 1 < (create_passage_slides ("P").toList
        (oneLongSentence ++ List.replicate 300 'b' ++ ['.']) []).length) ∧
    ((create_passage_slides ("P").toList ("short.").toList []).getD 0
        dummySlide).continuedFooter =
      decide (0 + 1 < (create_passage_slides ("P").toList ("short.").toList []).length) :=
  ⟨continued_footer_iff_not_last ("P").toList
      (oneLongSentence ++ List.replicate 300 'b' ++ ['.']) [] 0
      (by set_option maxRecDepth 40000 in decide),
    continued_footer_iff_not_last ("P").toList ("short.").toList [] 0 (by decide)⟩

/-- Helper: one step of the minimum-distance scan. -/
theorem minScan_cons (key : QRegion → Int) (pred : QRegion → Bool) (q : QRegion)
    (t : List QRegion) (init : Option Nat × Option Int) :
    minScan key pred (q :: t) init =
      minScan key pred t
        (if pred q then
          (if distLt (key q) init.2 then (some q.number, some (key q)) else init)
        else init) := rfl

/-- Helper: full characterisation of the minimum-distance scan: either no
scanned anchor beat the incoming minimum (in particular every anchor
passing the filter has distance at least the incoming minimum), or the
result records some filtered anchor of minimal distance that strictly
beats the incoming minimum. -/
theorem minScan_spec (key : QRegion → Int) (pred : QRegion → Bool) :
    ∀ (l : List QRegion) (init : Option Nat × Option Int),
      (minScan key pred l init = init ∧
        ∀ q ∈ l, pred q = true → ∃ m, init.2 = some m ∧ m ≤ key q) ∨
      (∃ q ∈ l, pred q = true ∧
        minScan key pred l init = (some q.number, some (key q)) ∧
        (∀ r ∈ l, pred r = true → key q ≤ key r) ∧
        (∀ m, init.2 = some m → key q < m)) := by
  intro l
  induction l with
  | nil =>
    intro init
    exact Or.inl ⟨rfl, by intro q hq; cases hq⟩
  | cons q t ih =>
    intro init
    rw [minScan_cons]
    by_cases hp : pred q = true
    · rw [if_pos hp]
      by_cases hd : distLt (key q) init.2 = true
      · rw [if_pos hd]
        have hdlt : ∀ m : Int, init.2 = some m → key q < m := by
          intro m hm
          rw [hm] at hd
          exact of_decide_eq_true hd
        rcases ih (some q.number, some (key q)) with ⟨heq, hall⟩ | ⟨q2, hq2t, hq2p, heq, hmin, hinit⟩
        · refine Or.inr ⟨q, List.mem_cons_self _ _, hp, heq, ?_, hdlt⟩
          intro r hr hrp
          rcases List.mem_cons.mp hr with rfl | hrt
          · exact le_refl _
          · obtain ⟨m, hm, hmle⟩ := hall r hrt hrp
            cases Option.some.inj hm
            exact hmle
        · refine Or.inr ⟨q2, List.mem_cons_of_mem _ hq2t, hq2p, heq, ?_, ?_⟩
          · intro r hr hrp
            rcases List.mem_cons.mp hr with rfl | hrt
            · exact le_of_lt (hinit (key r) rfl)
            · exact hmin r hrt hrp
          · intro m hm
            exact lt_trans (hinit (key q) rfl) (hdlt m hm)
      · rw [if_neg hd]
        obtain ⟨m0, hm0, hm0le⟩ : ∃ m0, init.2 = some m0 ∧ m0 ≤ key q := by
          rcases hinit2 : init.2 with - | m0
          · rw [hinit2] at hd
            exact absurd rfl hd
          · rw [hinit2] at hd
            refine ⟨m0, rfl, ?_⟩
            simp only [distLt] at hd
            exact not_lt.mp (fun hlt => hd (decide_eq_true hlt))
        rcases ih init with ⟨heq, hall⟩ | ⟨q2, hq2t, hq2p, heq, hmin, hinit⟩
        · refine Or.inl ⟨heq, ?_⟩
          intro r hr hrp
          rcases List.mem_cons.mp hr with rfl | hrt
          · exact ⟨m0, hm0, hm0le⟩
          · exact hall r hrt hrp
        · refine Or.inr ⟨q2, List.mem_cons_of_mem _ hq2t, hq2p, heq, ?_, hinit⟩
          intro r hr hrp
          rcases List.mem_cons.mp hr with rfl | hrt
          · exact le_of_lt (lt_of_lt_of_le (hinit m0 hm0) hm0le)
          · exact hmin r hrt hrp
    · rw [if_neg hp]
      rcases ih init with ⟨heq, hall⟩ | ⟨q2, hq2t, hq2p, heq, hmin, hinit⟩
      · refine Or.inl ⟨heq, ?_⟩
        intro r hr hrp
        rcases List.mem_cons.mp hr with rfl | hrt
        · exact absurd hrp hp
        · exact hall r hrt hrp
      · refine Or.inr ⟨q2, List.mem_cons_of_mem _ hq2t, hq2p, heq, ?_, hinit⟩
        intro r hr hrp
        rcases List.mem_cons.mp hr with rfl | hrt
        · exact absurd hrp hp
        · exact hmin r hrt hrp

/-- Helper: the candidate set only contains anchors of the page. -/
theorem candidateSet_subset (img_x : Int) (qs : List QRegion) (page_width : Int) :
    ∀ q ∈ candidateSet img_x qs page_width, q ∈ qs := by
  intro q hq
  simp only [candidateSet] at hq
  split at hq
  · exact hq
  · exact (List.mem_filter.mp hq).1

/-- Helper: the candidate set of a non-empty anchor list is non-empty. -/
theorem candidateSet_ne_nil (img_x : Int) (qs : List QRegion) (page_width : Int)
    (hne : qs ≠ []) : candidateSet img_x qs page_width ≠ [] := by
  simp only [candidateSet]
  split
  · exact hne
  · next h =>
    intro h2
    apply h
    rw [h2]
    rfl

/-- Helper: the mcq2 association engine `find_associated_question`
assigns, within the candidate set, an anchor of smallest positive
vertical gap below the diagram's vertical center; if no anchor lies
below, a nearest anchor at or above the center.  Anchor numbers are
positive, as `detect_question_regions_enhanced` guarantees (its
`if question_num and ...` filter discards the falsy `0`). -/
theorem diagram_association_below_then_above
    (img_y img_x img_h page_width : Int) (qs : List QRegion)
    (hne : qs ≠ []) (hpos : ∀ q ∈ qs, 0 < q.number) :
    ((∃ q ∈ candidateSet img_x qs page_width, img_y + Int.fdiv img_h 2 < q.y) →
      ∃ q ∈ candidateSet img_x qs page_width,
        img_y + Int.fdiv img_h 2 < q.y ∧
        find_associated_question img_y img_x img_h qs page_width = some q.number ∧
        ∀ r ∈ candidateSet img_x qs page_width,
          img_y + Int.fdiv img_h 2 < r.y →
          q.y - (img_y + Int.fdiv img_h 2) ≤ r.y - (img_y + Int.fdiv img_h 2)) ∧
    ((∀ q ∈ candidateSet img_x qs page_width, q.y ≤ img_y + Int.fdiv img_h 2) →
      ∃ q ∈ candidateSet img_x qs page_width,
        find_associated_question img_y img_x img_h qs page_width = some q.number ∧
        ∀ r ∈ candidateSet img_x qs page_width,
          (img_y + Int.fdiv img_h 2) - q.y ≤ (img_y + Int.fdiv img_h 2) - r.y) := by
  have hne2 : ¬(qs.isEmpty = true) := fun h => hne (List.isEmpty_iff.mp h)
  set c := img_y + Int.fdiv img_h 2 with hcdef
  set C := candidateSet img_x qs page_width with hCdef
  have hCsub : ∀ q ∈ C, q ∈ qs := candidateSet_subset img_x qs page_width
  have hfind : find_associated_question img_y img_x img_h qs page_width =
      (if pyFalsy (minScan (fun q => q.y - c) (fun q => decide (c < q.y)) C (none, none)).1 then
        (minScan (fun q => c - q.y) (fun q => decide (q.y ≤ c)) C
          (minScan (fun q => q.y - c) (fun q => decide (c < q.y)) C (none, none))).1
      else (minScan (fun q => q.y - c) (fun q => decide (c < q.y)) C (none, none)).1) := by
    simp only [find_associated_question]
    rw [if_neg hne2]
  constructor
  · rintro ⟨q0, hq0C, hq0⟩
    rcases minScan_spec (fun q => q.y - c) (fun q => decide (c < q.y)) C (none, none) with
      ⟨-, hall⟩ | ⟨q, hqC, hqp, heq, hmin, -⟩
    · obtain ⟨m, hm, -⟩ := hall q0 hq0C (decide_eq_true hq0)
      exact Option.noConfusion hm
    · have hfalsy : pyFalsy (some q.number) = false := by
        have := hpos q (hCsub q hqC)
        simp only [pyFalsy]
        exact beq_eq_false_iff_ne.mpr (by omega)
      refine ⟨q, hqC, of_decide_eq_true hqp, ?_, ?_⟩
      · rw [hfind, heq]
        simp [hfalsy]
      · intro r hrC hr
        exact hmin r hrC (decide_eq_true hr)
  · intro habove
    rcases minScan_spec (fun q => q.y - c) (fun q => decide (c < q.y)) C (none, none) with
      ⟨heq, -⟩ | ⟨q, hqC, hqp, -, -, -⟩
    swap
    · exact absurd (of_decide_eq_true hqp) (not_lt.mpr (habove q hqC))
    · rcases minScan_spec (fun q => c - q.y) (fun q => decide (q.y ≤ c)) C (none, none) with
        ⟨-, hall2⟩ | ⟨q2, hq2C, -, heq2, hmin2, -⟩
      · have hCne : C ≠ [] := candidateSet_ne_nil img_x qs page_width hne
        obtain ⟨q0, hq0⟩ := List.exists_mem_of_ne_nil C hCne
        obtain ⟨m, hm, -⟩ := hall2 q0 hq0 (decide_eq_true (habove q0 hq0))
        exact Option.noConfusion hm
      · refine ⟨q2, hq2C, ?_, ?_⟩
        · rw [hfind, heq]
          simpa [pyFalsy] using congrArg Prod.fst heq2
        · intro r hrC
          exact hmin2 r hrC (decide_eq_true (habove r hrC))

/-- Claim C2 (counterexample): the mcq1 association engine
`MCQConverter.find_closest_question` never searches below.  With a single
anchor 50 pixels below the image center it assigns nothing, although the
claim demands assignment to that anchor (smallest positive gap below,
non-empty candidate set); and with one anchor 50 below and one 300 above
it assigns the far-above anchor instead of the below one. -/
theorem below_anchor_ignored_by_mcq1 :
    ((300 : Int) < anchorBelowNear.y) ∧
    (anchorAboveFar.y ≤ (300 : Int)) ∧
    find_closest_question 300 600 [anchorBelowNear] 1000 = none ∧
    find_closest_question 300 600 [anchorBelowNear, anchorAboveFar] 1000 =
      some anchorAboveFar.number :=
  ⟨by decide, by decide, by decide, by decide⟩

/-- Claim C2 (amended): the below-first-then-above rule is implemented by
the mcq2 association engine only.  For `find_associated_question`, within
the candidate set the diagram is assigned to an anchor with the smallest
positive vertical gap below the diagram's vertical center, and when no
anchor lies below, to a nearest anchor at or above the center — in
particular, with one anchor at `y = 100` and a diagram centered at
`y = 300` in the same column the diagram gets that anchor's number.  The
mcq1 variant `find_closest_question` instead assigns a nearest anchor
strictly above the image center and assigns nothing at all when no anchor
is above. -/
theorem association_below_first_mcq2_only
    (img_y img_x img_h page_width image_y : Int) (qs : List QRegion)
    (hne : qs ≠ []) (hpos : ∀ q ∈ qs, 0 < q.number) :
    ((∃ q ∈ candidateSet img_x qs page_width, img_y + Int.fdiv img_h 2 < q.y) →
      ∃ q ∈ candidateSet img_x qs page_width,
        img_y + Int.fdiv img_h 2 < q.y ∧
        find_associated_question img_y img_x img_h qs page_width = some q.number ∧
        ∀ r ∈ candidateSet img_x qs page_width,
          img_y + Int.fdiv img_h 2 < r.y →
          q.y - (img_y + Int.fdiv img_h 2) ≤ r.y - (img_y + Int.fdiv img_h 2)) ∧
    ((∀ q ∈ candidateSet img_x qs page_width, q.y ≤ img_y + Int.fdiv img_h 2) →
      ∃ q ∈ candidateSet img_x qs page_width,
        find_associated_question img_y img_x img_h qs page_width = some q.number ∧
        ∀ r ∈ candidateSet img_x qs page_width,
          (img_y + Int.fdiv img_h 2) - q.y ≤ (img_y + Int.fdiv img_h 2) - r.y) ∧
    ((∃ q ∈ qs, q.y < image_y) →
      ∃ q ∈ qs, q.y < image_y ∧
        find_closest_question image_y img_x qs page_width = some q.number ∧
        ∀ r ∈ qs, r.y < image_y → image_y - q.y ≤ image_y - r.y) ∧
    ((∀ q ∈ qs, image_y ≤ q.y) →
      find_closest_question image_y img_x qs page_width = none) := by
  have hne2 : ¬(qs.isEmpty = true) := fun h => hne (List.isEmpty_iff.mp h)
  obtain ⟨hm2a, hm2b⟩ :=
    diagram_association_below_then_above img_y img_x img_h page_width qs hne hpos
  refine ⟨hm2a, hm2b, ?_, ?_⟩
  · rintro ⟨q0, hq0, hq0y⟩
    rcases minScan_spec (fun q => image_y - q.y) (fun q => decide (q.y < image_y))
        qs (none, none) with
      ⟨-, hall⟩ | ⟨q, hqm, hqp, heq, hmin, -⟩
    · obtain ⟨m, hm, -⟩ := hall q0 hq0 (decide_eq_true hq0y)
      exact Option.noConfusion hm
    · refine ⟨q, hqm, of_decide_eq_true hqp, ?_, ?_⟩
      · simp only [find_closest_question]
        rw [if_neg hne2, heq]
      · intro r hr hry
        exact hmin r hr (decide_eq_true hry)
  · intro hall
    simp only [find_closest_question]
    rw [if_neg hne2]
    rcases minScan_spec (fun q => image_y - q.y) (fun q => decide (q.y < image_y))
        qs (none, none) with
      ⟨heq, -⟩ | ⟨q, hqm, hqp, -, -, -⟩
    · rw [heq]
    · exact absurd (of_decide_eq_true hqp) (not_lt.mpr (hall q hqm))

/-- Witness for the amended claim C2: the spec's scenario for mcq2 (one
anchor at `y = 100`, diagram centered at `y = 300`, same column, diagram
assigned to that anchor), and the mcq1 variant assigning the anchor above
an image centered at `y = 400`. -/
theorem association_below_first_mcq2_only_witness :
    (∀ q ∈ candidateSet 600 [anchorLone] 1000, q.y ≤ 250 + Int.fdiv 100 2) ∧
    (∃ q ∈ candidateSet 600 [anchorLone] 1000,
      find_associated_question 250 600 100 [anchorLone] 1000 = some q.number ∧
      ∀ r ∈ candidateSet 600 [anchorLone] 1000,
        (250 + Int.fdiv 100 2) - q.y ≤ (250 + Int.fdiv 100 2) - r.y) ∧
    (∃ q ∈ [anchorLone], q.y < 400 ∧
      find_closest_question 400 600 [anchorLone] 1000 = some q.number ∧
      ∀ r ∈ [anchorLone], r.y < 400 → 400 - q.y ≤ 400 - r.y) :=
  ⟨by decide,
    (association_below_first_mcq2_only 250 600 100 1000 400 [anchorLone]
      (by decide) (by decide)).2.1 (by decide),
    (association_below_first_mcq2_only 250 600 100 1000 400 [anchorLone]
      (by decide) (by decide)).2.2.1 (by decide)⟩

/-- Helper: a successful association names some anchor of the candidate
set. -/
theorem find_assoc_mem (img_y img_x img_h page_width : Int) (qs : List QRegion) (n : Nat)
    (hfind : find_associated_question img_y img_x img_h qs page_width = some n) :
    ∃ q ∈ candidateSet img_x qs page_width, q.number = n := by
  by_cases hqs : qs.isEmpty = true
  · simp only [find_associated_question] at hfind
    rw [if_pos hqs] at hfind
    exact Option.noConfusion hfind
  · simp only [find_associated_question] at hfind
    rw [if_neg hqs] at hfind
    set c := img_y + Int.fdiv img_h 2 with hcdef
    set C := candidateSet img_x qs page_width with hCdef
    rcases minScan_spec (fun q => q.y - c) (fun q => decide (c < q.y)) C (none, none) with
      ⟨heq, -⟩ | ⟨q, hqC, -, heq, -, -⟩
    · rw [heq] at hfind
      have hfind2 : (minScan (fun q => c - q.y) (fun q => decide (q.y ≤ c)) C
          ((none : Option Nat), (none : Option Int))).1 = some n := by
        simpa [pyFalsy] using hfind
      rcases minScan_spec (fun q => c - q.y) (fun q => decide (q.y ≤ c)) C (none, none) with
        ⟨heq2, -⟩ | ⟨q2, hq2C, -, heq2, -, -⟩
      · rw [heq2] at hfind2
        exact Option.noConfusion hfind2
      · rw [heq2] at hfind2
        exact ⟨q2, hq2C, Option.some.inj hfind2⟩
    · rw [heq] at hfind
      by_cases hz : pyFalsy ((some q.number, some (q.y - c)) : Option Nat × Option Int).1 = true
      · rw [if_pos hz] at hfind
        rcases minScan_spec (fun q => c - q.y) (fun q => decide (q.y ≤ c)) C
            (some q.number, some (q.y - c)) with
          ⟨heq2, -⟩ | ⟨q2, hq2C, -, heq2, -, -⟩
        · rw [heq2] at hfind
          exact ⟨q, hqC, Option.some.inj hfind⟩
        · rw [heq2] at hfind
          exact ⟨q2, hq2C, Option.some.inj hfind⟩
      · rw [if_neg hz] at hfind
        exact ⟨q, hqC, Option.some.inj hfind⟩

/-- Claim C3 (counterexample): a diagram with bounding box left edge
`x = 400` and width `400` on a 1000-pixel-wide page has its x-midpoint
(`600`) in the right half, and a right-column anchor exists, yet the
engine assigns the left-column anchor: the code determines the column
from the bounding box's left `x`, not from the x-midpoint. -/
theorem column_by_midpoint_refuted :
    ((400 : Rat) + 400 / 2 > 1000 / 2) ∧
    inRightHalf anchorRight.x 1000 = true ∧
    inRightHalf anchorLeft.x 1000 = false ∧
    find_associated_question 250 400 100 [anchorLeft, anchorRight] 1000 =
      some anchorLeft.number :=
  ⟨by norm_num, by decide, by decide, by decide⟩

/-- Claim C3 (amended): the engine determines the diagram's column from
its bounding box's left x-coordinate; it considers only same-column
anchors, falling back to all anchors only when the same column has none;
consequently, for a diagram whose left edge lies strictly in the right
half, a left-column anchor is never selected while any right-column
anchor exists. -/
theorem column_preference_by_left_edge
    (img_y img_x img_h page_width : Int) (qs : List QRegion) (n : Nat)
    (hR : inRightHalf img_x page_width = true)
    (hex : ∃ q ∈ qs, inRightHalf q.x page_width = true)
    (hfind : find_associated_question img_y img_x img_h qs page_width = some n) :
    ∃ q ∈ qs, q.number = n ∧ inRightHalf q.x page_width = true := by
  obtain ⟨q, hqC, hqn⟩ := find_assoc_mem img_y img_x img_h page_width qs n hfind
  have hCeq : candidateSet img_x qs page_width =
      qs.filter (fun r => inRightHalf r.x page_width == inRightHalf img_x page_width) := by
    simp only [candidateSet]
    rw [if_neg]
    obtain ⟨q0, hq0, hq0r⟩ := hex
    have hmem : q0 ∈ qs.filter
        (fun r => inRightHalf r.x page_width == inRightHalf img_x page_width) :=
      List.mem_filter.mpr ⟨hq0, by rw [hq0r, hR]; rfl⟩
    intro hemp
    rw [List.isEmpty_iff.mp hemp] at hmem
    cases hmem
  rw [hCeq] at hqC
  obtain ⟨hqqs, hqr⟩ := List.mem_filter.mp hqC
  rw [hR] at hqr
  exact ⟨q, hqqs, hqn, eq_of_beq hqr⟩

/-- Witness for the amended claim C3: the diagram with left edge `x = 600`
(right column) is associated with the right-column anchor. -/
theorem column_preference_by_left_edge_witness :
    ∃ q ∈ [anchorLeft, anchorRight], q.number = 2 ∧ inRightHalf q.x 1000 = true :=
  column_preference_by_left_edge 250 600 100 1000 [anchorLeft, anchorRight] 2
    (by decide) ⟨anchorRight, by decide, by decide⟩ (by decide)

/-- Helper: deduplication entries store their key's region. -/
theorem updAssoc_key_eq (q : QRegion) :
    ∀ (acc : List (Nat × QRegion)), (∀ p ∈ acc, p.2.number = p.1) →
      ∀ p ∈ updAssoc acc q, p.2.number = p.1 := by
  intro acc
  induction acc with
  | nil =>
    intro h p hp
    rw [List.mem_singleton.mp hp]
  | cons e rest ih =>
    intro h p hp
    obtain ⟨k, r⟩ := e
    simp only [updAssoc] at hp
    split at hp
    · next hk =>
      split at hp
      · rcases List.mem_cons.mp hp with rfl | hrest
        · exact hk.symm
        · exact h _ (List.mem_cons_of_mem _ hrest)
      · rcases List.mem_cons.mp hp with rfl | hrest
        · exact h _ (List.mem_cons_self _ _)
        · exact h _ (List.mem_cons_of_mem _ hrest)
    · rcases List.mem_cons.mp hp with rfl | hrest
      · exact h _ (List.mem_cons_self _ _)
      · exact ih (fun p2 hp2 => h p2 (List.mem_cons_of_mem _ hp2)) p hrest

/-- Helper: a deduplication entry is an old entry or the new candidate's
own entry. -/
theorem updAssoc_mem_cases (q : QRegion) :
    ∀ (acc : List (Nat × QRegion)) (p : Nat × QRegion),
      p ∈ updAssoc acc q → p ∈ acc ∨ p = (q.number, q) := by
  intro acc
  induction acc with
  | nil =>
    intro p hp
    exact Or.inr (List.mem_singleton.mp hp)
  | cons e rest ih =>
    intro p hp
    obtain ⟨k, r⟩ := e
    simp only [updAssoc] at hp
    split at hp
    · next hk =>
      split at hp
      · rcases List.mem_cons.mp hp with rfl | hrest
        · exact Or.inr (by rw [hk])
        · exact Or.inl (List.mem_cons_of_mem _ hrest)
      · exact Or.inl hp
    · rcases List.mem_cons.mp hp with rfl | hrest
      · exact Or.inl (List.mem_cons_self _ _)
      · rcases ih p hrest with h2 | h2
        · exact Or.inl (List.mem_cons_of_mem _ h2)
        · exact Or.inr h2

/-- Helper: the keys after one deduplication step. -/
theorem updAssoc_keys (q : QRegion) :
    ∀ (acc : List (Nat × QRegion)),
      (updAssoc acc q).map Prod.fst =
        if q.number ∈ acc.map Prod.fst then acc.map Prod.fst
        else acc.map Prod.fst ++ [q.number] := by
  intro acc
  induction acc with
  | nil => rfl
  | cons e rest ih =>
    obtain ⟨k, r⟩ := e
    simp only [updAssoc]
    by_cases hk : k = q.number
    · rw [if_pos hk]
      have hmem : q.number ∈ ((k, r) :: rest).map Prod.fst := by
        rw [List.map_cons, ← hk]
        exact List.mem_cons_self _ _
      rw [if_pos hmem]
      split <;> rfl
    · rw [if_neg hk]
      rw [List.map_cons, List.map_cons, ih]
      by_cases hmem : q.number ∈ rest.map Prod.fst
      · rw [if_pos hmem, if_pos (List.mem_cons_of_mem _ hmem)]
      · rw [if_neg hmem, if_neg ?_, List.cons_append]
        intro hc
        rcases List.mem_cons.mp hc with hc | hc
        · exact hk hc.symm
        · exact hmem hc

/-- Helper: deduplication keeps the keys duplicate-free. -/
theorem updAssoc_keys_nodup (q : QRegion) (acc : List (Nat × QRegion))
    (h : (acc.map Prod.fst).Nodup) : ((updAssoc acc q).map Prod.fst).Nodup := by
  rw [updAssoc_keys]
  split
  · exact h
  · next hmem =>
    simp only [List.nodup_append, List.nodup_cons, List.nodup_nil, and_true, true_and]
    exact ⟨h, by simpa [List.disjoint_singleton] using hmem⟩

/-- Helper: every old entry survives one step with the same key and at
least the same confidence. -/
theorem updAssoc_pres (q : QRegion) :
    ∀ (acc : List (Nat × QRegion)) (p : Nat × QRegion), p ∈ acc →
      ∃ p2 ∈ updAssoc acc q, p2.1 = p.1 ∧ p.2.confidence ≤ p2.2.confidence := by
  intro acc
  induction acc with
  | nil => intro p hp; cases hp
  | cons e rest ih =>
    intro p hp
    obtain ⟨k, r⟩ := e
    simp only [updAssoc]
    split
    · next hk =>
      split
      · next hconf =>
        rcases List.mem_cons.mp hp with rfl | hrest
        · exact ⟨(k, q), List.mem_cons_self _ _, rfl, le_of_lt hconf⟩
        · exact ⟨p, List.mem_cons_of_mem _ hrest, rfl, le_refl _⟩
      · rcases List.mem_cons.mp hp with rfl | hrest
        · exact ⟨(k, r), List.mem_cons_self _ _, rfl, le_refl _⟩
        · exact ⟨p, List.mem_cons_of_mem _ hrest, rfl, le_refl _⟩
    · rcases List.mem_cons.mp hp with rfl | hrest
      · exact ⟨(k, r), List.mem_cons_self _ _, rfl, le_refl _⟩
      · obtain ⟨p2, hp2, hkey, hconf⟩ := ih p hrest
        exact ⟨p2, List.mem_cons_of_mem _ hp2, hkey, hconf⟩

/-- Helper: after one step the new candidate's number is present with at
least the candidate's confidence. -/
theorem updAssoc_self (q : QRegion) :
    ∀ (acc : List (Nat × QRegion)),
      ∃ p ∈ updAssoc acc q, p.1 = q.number ∧ q.confidence ≤ p.2.confidence := by
  intro acc
  induction acc with
  | nil => exact ⟨(q.number, q), List.mem_singleton.mpr rfl, rfl, le_refl _⟩
  | cons e rest ih =>
    obtain ⟨k, r⟩ := e
    simp only [updAssoc]
    split
    · next hk =>
      split
      · next hconf =>
        exact ⟨(k, q), List.mem_cons_self _ _, hk, le_refl _⟩
      · next hconf =>
        exact ⟨(k, r), List.mem_cons_self _ _, hk, not_lt.mp hconf⟩
    · obtain ⟨p, hp, hkey, hconf⟩ := ih
      exact ⟨p, List.mem_cons_of_mem _ hp, hkey, hconf⟩

/-- Helper: entry keys through the whole fold store their region's
number. -/
theorem foldl_updAssoc_key_eq :
    ∀ (l : List QRegion) (acc : List (Nat × QRegion)),
      (∀ p ∈ acc, p.2.number = p.1) →
      ∀ p ∈ l.foldl updAssoc acc, p.2.number = p.1 := by
  intro l
  induction l with
  | nil => intro acc h; exact h
  | cons q t ih =>
    intro acc h
    exact ih (updAssoc acc q) (updAssoc_key_eq q acc h)

/-- Helper: the keys stay duplicate-free through the whole fold. -/
theorem foldl_updAssoc_nodup :
    ∀ (l : List QRegion) (acc : List (Nat × QRegion)),
      (acc.map Prod.fst).Nodup → ((l.foldl updAssoc acc).map Prod.fst).Nodup := by
  intro l
  induction l with
  | nil => intro acc h; exact h
  | cons q t ih =>
    intro acc h
    exact ih (updAssoc acc q) (updAssoc_keys_nodup q acc h)

/-- Helper: every final entry value originates in the initial entries or
in the candidate list. -/
theorem foldl_updAssoc_mem :
    ∀ (l : List QRegion) (acc : List (Nat × QRegion)) (p : Nat × QRegion),
      p ∈ l.foldl updAssoc acc → p ∈ acc ∨ p.2 ∈ l := by
  intro l
  induction l with
  | nil => intro acc p hp; exact Or.inl hp
  | cons q t ih =>
    intro acc p hp
    rcases ih (updAssoc acc q) p hp with h2 | h2
    · rcases updAssoc_mem_cases q acc p h2 with h3 | h3
      · exact Or.inl h3
      · refine Or.inr ?_
        rw [h3]
        exact List.mem_cons_self _ _
    · exact Or.inr (List.mem_cons_of_mem _ h2)

/-- Helper: every initial entry is represented at the end of the fold with
the same key and at least the same confidence. -/
theorem foldl_updAssoc_pres :
    ∀ (l : List QRegion) (acc : List (Nat × QRegion)) (p : Nat × QRegion), p ∈ acc →
      ∃ p2 ∈ l.foldl updAssoc acc, p2.1 = p.1 ∧ p.2.confidence ≤ p2.2.confidence := by
  intro l
  induction l with
  | nil =>
    intro acc p hp
    exact ⟨p, hp, rfl, le_refl _⟩
  | cons q t ih =>
    intro acc p hp
    obtain ⟨p1, hp1, hkey1, hconf1⟩ := updAssoc_pres q acc p hp
    obtain ⟨p2, hp2, hkey2, hconf2⟩ := ih (updAssoc acc q) p1 hp1
    exact ⟨p2, hp2, hkey2.trans hkey1, le_trans hconf1 hconf2⟩

/-- Helper: every scanned candidate is dominated by the final entry of its
number. -/
theorem foldl_updAssoc_dominates :
    ∀ (l : List QRegion) (acc : List (Nat × QRegion)) (c : QRegion), c ∈ l →
      ∃ p ∈ l.foldl updAssoc acc, p.1 = c.number ∧ c.confidence ≤ p.2.confidence := by
  intro l
  induction l with
  | nil => intro acc c hc; cases hc
  | cons q t ih =>
    intro acc c hc
    rcases List.mem_cons.mp hc with rfl | hct
    · obtain ⟨p1, hp1, hkey1, hconf1⟩ := updAssoc_self c acc
      obtain ⟨p2, hp2, hkey2, hconf2⟩ := foldl_updAssoc_pres t (updAssoc acc c) p1 hp1
      exact ⟨p2, hp2, hkey2.trans hkey1, le_trans hconf1 hconf2⟩
    · exact ih (updAssoc acc q) c hct

/-- Helper: in an association list with duplicate-free keys, the value of
a key is unique. -/
theorem nodup_keys_value_eq :
    ∀ (acc : List (Nat × QRegion)), (acc.map Prod.fst).Nodup →
      ∀ (k : Nat) (a b : QRegion), (k, a) ∈ acc → (k, b) ∈ acc → a = b := by
  intro acc
  induction acc with
  | nil => intro h k a b ha; cases ha
  | cons e rest ih =>
    intro h k a b ha hb
    obtain ⟨k0, r0⟩ := e
    rw [List.map_cons, List.nodup_cons] at h
    rcases List.mem_cons.mp ha with ha1 | ha1 <;> rcases List.mem_cons.mp hb with hb1 | hb1
    · have h1 := (Prod.mk.injEq _ _ _ _).mp ha1
      have h2 := (Prod.mk.injEq _ _ _ _).mp hb1
      rw [h1.2, h2.2]
    · obtain ⟨hk, -⟩ := (Prod.mk.injEq _ _ _ _).mp ha1
      exact absurd (List.mem_map.mpr ⟨(k, b), hb1, hk⟩) h.1
    · obtain ⟨hk, -⟩ := (Prod.mk.injEq _ _ _ _).mp hb1
      exact absurd (List.mem_map.mpr ⟨(k, a), ha1, hk⟩) h.1
    · exact ih h.2 k a b ha1 hb1

/-- Helper: the position order as a proposition. -/
theorem posLe_iff (a b : QRegion) :
    posLe a b = true ↔ (a.y < b.y ∨ (a.y = b.y ∧ a.x ≤ b.x)) := by
  simp only [posLe]
  split_ifs with h1 h2
  · simp [h1]
  · simp [h1, h2]
  · simp [h1, h2]

/-- Helper: the position order is total. -/
theorem posLe_total (a b : QRegion) : posLe a b = true ∨ posLe b a = true := by
  rw [posLe_iff, posLe_iff]
  omega

/-- Helper: the position order is transitive. -/
theorem posLe_trans {a b c : QRegion} (h1 : posLe a b = true) (h2 : posLe b c = true) :
    posLe a c = true := by
  rw [posLe_iff] at h1 h2 ⊢
  omega

/-- Helper: membership in an insertion. -/
theorem mem_insertByPos (q : QRegion) :
    ∀ (l : List QRegion) (a : QRegion), a ∈ insertByPos q l ↔ a = q ∨ a ∈ l := by
  intro l
  induction l with
  | nil =>
    intro a
    simp [insertByPos]
  | cons r rest ih =>
    intro a
    simp only [insertByPos]
    split
    · simp only [List.mem_cons, ih]
      tauto
    · simp only [List.mem_cons]

/-- Helper: insertion permutes with consing. -/
theorem perm_insertByPos (q : QRegion) :
    ∀ (l : List QRegion), List.Perm (insertByPos q l) (q :: l) := by
  intro l
  induction l with
  | nil => exact List.Perm.refl _
  | cons r rest ih =>
    simp only [insertByPos]
    split
    · exact ((ih.cons r).trans (List.Perm.swap q r rest))
    · exact List.Perm.refl _

/-- Helper: the sort permutes its input. -/
theorem perm_sortByPos : ∀ (l : List QRegion), List.Perm (sortByPos l) l := by
  intro l
  induction l with
  | nil => exact List.Perm.refl _
  | cons r rest ih =>
    have : sortByPos (r :: rest) = insertByPos r (sortByPos rest) := rfl
    rw [this]
    exact (perm_insertByPos r (sortByPos rest)).trans (ih.cons r)

/-- Helper: insertion preserves sortedness. -/
theorem pairwise_insertByPos (q : QRegion) :
    ∀ (l : List QRegion), l.Pairwise (fun a b => posLe a b = true) →
      (insertByPos q l).Pairwise (fun a b => posLe a b = true) := by
  intro l
  induction l with
  | nil =>
    intro h
    simp [insertByPos]
  | cons r rest ih =>
    intro h
    rw [List.pairwise_cons] at h
    simp only [insertByPos]
    split
    · next hle =>
      rw [List.pairwise_cons]
      refine ⟨?_, ih h.2⟩
      intro x hx
      rcases (mem_insertByPos q rest x).mp hx with rfl | hx2
      · exact hle
      · exact h.1 x hx2
    · next hle =>
      have hqr : posLe q r = true := by
        rcases posLe_total r q with h2 | h2
        · exact absurd h2 hle
        · exact h2
      rw [List.pairwise_cons]
      refine ⟨?_, List.pairwise_cons.mpr h⟩
      intro x hx
      rcases List.mem_cons.mp hx with rfl | hx2
      · exact hqr
      · exact posLe_trans hqr (h.1 x hx2)

/-- Helper: the sort sorts. -/
theorem pairwise_sortByPos :
    ∀ (l : List QRegion), (sortByPos l).Pairwise (fun a b => posLe a b = true) := by
  intro l
  induction l with
  | nil => exact List.Pairwise.nil
  | cons r rest ih => exact pairwise_insertByPos r (sortByPos rest) ih

/-- Claim C7: the anchor list returned by the deduplicate-then-sort
postlude of anchor detection contains at most one anchor per question
number; each kept anchor is one of the scanned candidates and its
confidence is maximal among all candidates carrying its number; and the
returned list is sorted by vertical then horizontal position. -/
theorem anchor_dedup_sort_spec (l : List QRegion) :
    ((dedupe_and_sort_regions l).map QRegion.number).Nodup ∧
    (∀ r ∈ dedupe_and_sort_regions l,
      r ∈ l ∧ ∀ c ∈ l, c.number = r.number → c.confidence ≤ r.confidence) ∧
    (dedupe_and_sort_regions l).Pairwise (fun a b => posLe a b = true) := by
  have hperm : List.Perm (dedupe_and_sort_regions l) (dedupByNumber l) :=
    perm_sortByPos (dedupByNumber l)
  have hkeys : ∀ p ∈ l.foldl updAssoc [], p.2.number = p.1 :=
    foldl_updAssoc_key_eq l [] (by intro p hp; cases hp)
  have hnodup : ((l.foldl updAssoc []).map Prod.fst).Nodup :=
    foldl_updAssoc_nodup l [] List.nodup_nil
  refine ⟨?_, ?_, ?_⟩
  · have hmapeq : (dedupByNumber l).map QRegion.number =
        (l.foldl updAssoc []).map Prod.fst := by
      simp only [dedupByNumber, List.map_map]
      exact List.map_congr_left (fun p hp => hkeys p hp)
    have h1 : ((dedupByNumber l).map QRegion.number).Nodup := by
      rw [hmapeq]; exact hnodup
    exact ((hperm.map QRegion.number).symm.nodup h1 : _)
  · intro r hr
    have hrd : r ∈ dedupByNumber l := hperm.mem_iff.mp hr
    obtain ⟨p, hp, hpr⟩ := List.mem_map.mp hrd
    constructor
    · rcases foldl_updAssoc_mem l [] p hp with h2 | h2
      · cases h2
      · rw [← hpr]; exact h2
    · intro c hc hcn
      obtain ⟨p2, hp2, hkey2, hconf2⟩ := foldl_updAssoc_dominates l [] c hc
      have hpk : p.1 = r.number := by rw [← hkeys p hp, hpr]
      have hsame : p2.1 = p.1 := by rw [hkey2, hcn, hpk]
      have hval : p2.2 = p.2 := by
        have h1 : (p.1, p.2) ∈ l.foldl updAssoc [] := hp
        have h2 : (p.1, p2.2) ∈ l.foldl updAssoc [] := by
          rw [← hsame]; exact hp2
        exact (nodup_keys_value_eq _ hnodup p.1 p2.2 p.2 h2 h1)
      rw [← hpr, ← hval]
      exact hconf2
  · exact pairwise_sortByPos (dedupByNumber l)

/-- Witness for claim C7 at a concrete candidate list with a duplicated
number: the kept anchor for number 3 is a scanned candidate and dominates
every candidate numbered 3. -/
theorem anchor_dedup_sort_spec_witness :
    keptAnchor ∈ ocrCandidates ∧
    ∀ c ∈ ocrCandidates, c.number = keptAnchor.number →
      c.confidence ≤ keptAnchor.confidence :=
  (anchor_dedup_sort_spec ocrCandidates).2.1 keptAnchor (by decide)

end SKConv
